import Mathlib

/-!
# Verification of the rpc-tester core

Shallow embedding of the two source files of the repository:

* `crates/rpc-tester/src/get_logs.rs` — the adaptive range-pagination
  algorithm for `eth_getLogs` (`get_logs_with_retry`, `get_logs_paginated`,
  `extract_block_range`, `parse_max_results_error`).
* `crates/rpc-tester/src/report.rs` — the result reconciler (`report`,
  `filter_ignored_fields`, `verify_missing_or_mismatch`).

Machine integers (`u64` block numbers) are modelled as `Nat` with explicit
bounds checks against `U64MAX`; fallible operations return `Option`/`Except`.
The RPC provider is modelled as a function from a filter to either a list of
logs or an error carrying its display message (the only part of the error
the code ever inspects).
-/

namespace RpcTester

/-- `u64::MAX`, i.e. `2 ^ 64 - 1`. -/
def U64MAX : Nat := 18446744073709551615

/-- `u64::checked_sub`: `none` on underflow. -/
def checked_sub (a b : Nat) : Option Nat :=
  if b ≤ a then some (a - b) else none

/-- `u64::checked_add`: `none` when the mathematical sum exceeds `u64::MAX`. -/
def checked_add (a b : Nat) : Option Nat :=
  if a + b ≤ U64MAX then some (a + b) else none

/-- `u64::saturating_add`: clamps the sum at `u64::MAX`. -/
def saturating_add (a b : Nat) : Nat :=
  min (a + b) U64MAX

/-! ## Error-message parsing (`parse_max_results_error`) -/

/-- The predicate `c.is_ascii_digit() || c == '-'` used to delimit the
numeric range in the error message. -/
def isDigitOrDash (c : Char) : Bool :=
  c.isDigit || c == '-'

/-- `pat` is a prefix of `s` (pattern first). -/
def startsWith : List Char → List Char → Bool
  | [], _ => true
  | _ :: _, [] => false
  | p :: ps, c :: cs => p == c && startsWith ps cs

/-- The suffix of `s` that follows the first (leftmost) occurrence of `pat`,
or `none` when `pat` does not occur.  Models `str::find` followed by slicing
past the pattern; `Option.isSome` of it models `str::contains`. -/
def afterFirst (pat : List Char) : List Char → Option (List Char)
  | [] => if startsWith pat [] then some [] else none
  | c :: rest =>
    if startsWith pat (c :: rest) then some (List.drop pat.length (c :: rest))
    else afterFirst pat rest

/-- `str::split('-')`: the (always nonempty) list of dash-separated pieces;
an input without a dash yields a single piece, and consecutive, leading or
trailing dashes yield empty pieces, exactly as in Rust. -/
def splitDash : List Char → List (List Char)
  | [] => [[]]
  | c :: rest =>
    if c == '-' then [] :: splitDash rest
    else
      match splitDash rest with
      | [] => [[c]]
      | p :: ps => (c :: p) :: ps

/-- Numeric value of a digit character. -/
def digitVal (c : Char) : Nat := c.toNat - 48

/-- Value of a digit string, most significant digit first. -/
def strVal (s : List Char) : Nat :=
  s.foldl (fun acc c => acc * 10 + digitVal c) 0

/-- `str::parse::<u64>()` restricted to the strings it is fed here (pieces of
a digit-and-dash run, hence free of sign characters): fails on the empty
string, on any non-digit character, and on overflow past `u64::MAX`. -/
def parseU64 (s : List Char) : Option Nat :=
  if s.isEmpty then none
  else if s.all Char.isDigit then
    if strVal s ≤ U64MAX then some (strVal s) else none
  else none

/-- The pattern `"max results"`. -/
def maxResultsPat : List Char := "max results".data

/-- The pattern `"range "`. -/
def rangePat : List Char := "range ".data

/-- `parse_max_results_error` from `get_logs.rs`: requires the message to
contain `"max results"`, locates the first occurrence of `"range "`, takes
the maximal following run of digits and dashes, splits it on `'-'` and
parses the first two pieces as `u64`. -/
def parse_max_results_error (error : String) : Option (Nat × Nat) :=
  let msg := error.data
  if (afterFirst maxResultsPat msg).isSome then
    match afterFirst rangePat msg with
    | none => none
    | some range_part =>
      let range_str := range_part.takeWhile isDigitOrDash
      match splitDash range_str with
      | p1 :: p2 :: _ =>
        match parseU64 p1, parseU64 p2 with
        | some f, some t => some (f, t)
        | _, _ => none
      | _ => none
  else none

/-- `pat` occurs in `msg` starting at position `i`. -/
def occursAt (pat msg : List Char) (i : Nat) : Bool :=
  startsWith pat (msg.drop i)

/-- The number pattern of the spec's parsing rule, read at the suffix `s`
that follows `"range "`: two unsigned integers (maximal digit runs)
separated by a single dash, terminated by the first character that is
neither a digit nor a dash (or by the end of the message). -/
def specNumAt (s : List Char) (f t : Nat) : Prop :=
  s.takeWhile Char.isDigit ≠ [] ∧
  (s.drop (s.takeWhile Char.isDigit).length).head? = some '-' ∧
  (s.drop ((s.takeWhile Char.isDigit).length + 1)).takeWhile Char.isDigit ≠ [] ∧
  (s.drop ((s.takeWhile Char.isDigit).length + 1 +
      ((s.drop ((s.takeWhile Char.isDigit).length + 1)).takeWhile
        Char.isDigit).length)).head?.all (fun c => !isDigitOrDash c) = true ∧
  f = strVal (s.takeWhile Char.isDigit) ∧
  t = strVal ((s.drop ((s.takeWhile Char.isDigit).length + 1)).takeWhile
    Char.isDigit) ∧
  f ≤ U64MAX ∧ t ≤ U64MAX

/-- The shape the claim attributes to `parse_max_results_error`, formalised
from the spec's words: the message contains `"max results"`, and somewhere
*after it* contains `"range "` followed by two unsigned integers separated
by a single dash, terminated by the first character that is neither a digit
nor a dash. -/
def SpecShape (msg : List Char) (f t : Nat) : Prop :=
  ∃ i ∈ List.range (msg.length + 1), occursAt maxResultsPat msg i = true ∧
    ∃ j ∈ List.range (msg.length + 1), i + maxResultsPat.length ≤ j ∧
      occursAt rangePat msg j = true ∧
      specNumAt (msg.drop (j + rangePat.length)) f t

/-- The number pattern the code actually accepts after `"range "`: two
nonempty maximal digit runs separated by a single dash, with whatever
follows the second run left unconstrained (further dashes and pieces of the
digit-and-dash run are ignored). -/
def amendedNumAt (s : List Char) (f t : Nat) : Prop :=
  s.takeWhile Char.isDigit ≠ [] ∧
  (s.drop (s.takeWhile Char.isDigit).length).head? = some '-' ∧
  (s.drop ((s.takeWhile Char.isDigit).length + 1)).takeWhile Char.isDigit ≠ [] ∧
  f = strVal (s.takeWhile Char.isDigit) ∧
  t = strVal ((s.drop ((s.takeWhile Char.isDigit).length + 1)).takeWhile
    Char.isDigit) ∧
  f ≤ U64MAX ∧ t ≤ U64MAX

/-- The amended shape matching the code: the message contains
`"max results"` anywhere, `"range "` is located at its *first* occurrence
anywhere in the message (not necessarily after `"max results"`), and the
amended number pattern follows it. -/
def AmendedShape (msg : List Char) (f t : Nat) : Prop :=
  (∃ i ∈ List.range (msg.length + 1), occursAt maxResultsPat msg i = true) ∧
  ∃ j ∈ List.range (msg.length + 1), occursAt rangePat msg j = true ∧
    (∀ j' < j, occursAt rangePat msg j' = false) ∧
    amendedNumAt (msg.drop (j + rangePat.length)) f t

instance (s : List Char) (f t : Nat) : Decidable (specNumAt s f t) := by
  unfold specNumAt
  infer_instance

instance (s : List Char) (f t : Nat) : Decidable (amendedNumAt s f t) := by
  unfold amendedNumAt
  infer_instance

instance (msg : List Char) (f t : Nat) : Decidable (SpecShape msg f t) := by
  unfold SpecShape
  infer_instance

instance (msg : List Char) (f t : Nat) : Decidable (AmendedShape msg f t) := by
  unfold AmendedShape
  infer_instance

/-! ## The filter and its block range (`extract_block_range`) -/

/-- `alloy_rpc_types::BlockNumberOrTag`: a concrete block number or a
symbolic tag. -/
inductive BlockNumberOrTag where
  | number (n : Nat)
  | latest
  | finalized
  | safe
  | earliest
  | pending
deriving DecidableEq

/-- `alloy_rpc_types::FilterBlockOption`: either a from/to range (each bound
optional) or a pinned block hash (hash itself opaque). -/
inductive FilterBlockOption where
  | range (from_block to_block : Option BlockNumberOrTag)
  | at_block_hash (h : Nat)
deriving DecidableEq

/-- `alloy_rpc_types::Filter`: the block option plus the remaining filter
fields (addresses, topics), which the code treats as opaque and preserves
verbatim across range mutation. -/
structure Filter where
  block_option : FilterBlockOption
  rest : String
deriving DecidableEq

/-- `FilterBlockOption::get_from_block`. -/
def FilterBlockOption.get_from_block : FilterBlockOption → Option BlockNumberOrTag
  | .range fb _ => fb
  | .at_block_hash _ => none

/-- `FilterBlockOption::get_to_block`. -/
def FilterBlockOption.get_to_block : FilterBlockOption → Option BlockNumberOrTag
  | .range _ tb => tb
  | .at_block_hash _ => none

/-- `Filter::from_block`: rewrites the lower bound to a concrete number,
keeping the upper bound (and all other filter fields). -/
def Filter.from_block (f : Filter) (n : Nat) : Filter :=
  { f with
    block_option :=
      match f.block_option with
      | .range _ tb => .range (some (.number n)) tb
      | .at_block_hash _ => .range (some (.number n)) none }

/-- `Filter::to_block`: rewrites the upper bound to a concrete number,
keeping the lower bound (and all other filter fields). -/
def Filter.to_block (f : Filter) (n : Nat) : Filter :=
  { f with
    block_option :=
      match f.block_option with
      | .range fb _ => .range fb (some (.number n))
      | .at_block_hash _ => .range none (some (.number n)) }

/-- `extract_block_range` from `get_logs.rs`: the `(from, to)` pair when both
bounds are present and concrete, `none` otherwise. -/
def extract_block_range (filter : Filter) : Option (Nat × Nat) := do
  let fb ← filter.block_option.get_from_block
  let fn ← match fb with | .number n => some n | _ => none
  let tb ← filter.block_option.get_to_block
  let tn ← match tb with | .number n => some n | _ => none
  pure (fn, tn)

/-! ## The pagination loop and recursion (`get_logs_paginated`) -/

/-- The provider error, modelled by the display message — the only part of
the error that `parse_max_results_error` inspects; the code otherwise
returns the error value unchanged. -/
abbrev ProviderError := String

/-- The loop measure of `get_logs_paginated` decreases: from a window start
`cf ≤ ot`, when advancing past the window end does not overflow `u64`, the
next window start `min (saturating_add cf (cs - 1)) ot + 1` is strictly
closer to `ot + 1`. -/
theorem window_step_lt (cf cs ot : Nat) (h1 : cf ≤ ot)
    (h2 : ¬ U64MAX < min (saturating_add cf (cs - 1)) ot + 1) :
    ot + 1 - (min (saturating_add cf (cs - 1)) ot + 1) < ot + 1 - cf := by
  have hmm : saturating_add cf (cs - 1) = min (cf + (cs - 1)) U64MAX := rfl
  rw [hmm] at h2 ⊢
  have hs2 : min (cf + (cs - 1)) U64MAX = cf + (cs - 1) ∨
      min (cf + (cs - 1)) U64MAX = U64MAX := min_choice _ _
  have h4 : min (min (cf + (cs - 1)) U64MAX) ot = min (cf + (cs - 1)) U64MAX ∨
      min (min (cf + (cs - 1)) U64MAX) ot = ot := min_choice _ _
  have hU : U64MAX = 18446744073709551615 := rfl
  rcases hs2 with h7 | h7 <;> rcases h4 with h8 | h8 <;> omega

/-- The `while current_from <= original_to` loop of `get_logs_paginated`,
parametrised by the sub-query `sub` performed for each window.  Each
iteration queries the window `[current_from, current_to]` with
`current_to = min(current_from.saturating_add(chunk_size - 1), original_to)`,
appends the returned logs, and advances to `current_to + 1`, breaking (with
the logs collected so far) when that increment would overflow `u64`.  Any
failing sub-query aborts the whole loop with that error. -/
def fetchWindows {L : Type} (sub : Nat → Nat → Except ProviderError (List L))
    (chunk_size original_to current_from : Nat) : Except ProviderError (List L) :=
  if current_from ≤ original_to then
    let current_to := min (saturating_add current_from (chunk_size - 1)) original_to
    match sub current_from current_to with
    | .error e => .error e
    | .ok chunk_logs =>
      if U64MAX < current_to + 1 then .ok chunk_logs
      else
        match fetchWindows sub chunk_size original_to (current_to + 1) with
        | .error e => .error e
        | .ok rest => .ok (chunk_logs ++ rest)
  else .ok []
termination_by original_to + 1 - current_from
decreasing_by
  exact window_step_lt _ _ _ (by assumption) (by assumption)

/-- The sequence of `(current_from, current_to)` windows the loop of
`get_logs_paginated` issues as sub-queries, in issue order. -/
def windowList (chunk_size original_to current_from : Nat) : List (Nat × Nat) :=
  if current_from ≤ original_to then
    let current_to := min (saturating_add current_from (chunk_size - 1)) original_to
    if U64MAX < current_to + 1 then [(current_from, current_to)]
    else (current_from, current_to) :: windowList chunk_size original_to (current_to + 1)
  else []
termination_by original_to + 1 - current_from
decreasing_by
  exact window_step_lt _ _ _ (by assumption) (by assumption)

/-- Sequential execution of a list of window sub-queries: concatenates the
results in window order, stopping at the first error. -/
def runList {L : Type} (sub : Nat → Nat → Except ProviderError (List L)) :
    List (Nat × Nat) → Except ProviderError (List L)
  | [] => .ok []
  | w :: ws =>
    match sub w.1 w.2 with
    | .error e => .error e
    | .ok l =>
      match runList sub ws with
      | .error e => .error e
      | .ok rest => .ok (l ++ rest)

/-- `MAX_RECURSION_DEPTH` from `get_logs.rs`. -/
def MAX_RECURSION_DEPTH : Nat := 10

/-- Worker for `get_logs_paginated`.  The Rust function recurses on `depth`,
which only ever grows, with every path beyond `MAX_RECURSION_DEPTH` issuing a
single query; the extra `fuel` argument (maintained as
`MAX_RECURSION_DEPTH + 2 - depth` by `get_logs_paginated`) makes that bound
structural.  Whenever `fuel` reaches `0` we have `depth > MAX_RECURSION_DEPTH`,
so the `p f` result agrees with the Rust depth test. -/
def go {L : Type} (p : Filter → Except ProviderError (List L)) :
    Nat → Filter → Nat → Except ProviderError (List L)
  | 0, f, _ => p f
  | fuel + 1, f, depth =>
    if MAX_RECURSION_DEPTH < depth then p f
    else
      match p f with
      | .ok logs => .ok logs
      | .error e =>
        match parse_max_results_error e with
        | none => .error e
        | some (suggested_from, suggested_to) =>
          match (checked_sub suggested_to suggested_from).bind
              (fun d => checked_add d 1) with
          | none => .error e
          | some chunk_size =>
            match (extract_block_range f).getD (suggested_from, suggested_to) with
            | (original_from, original_to) =>
              if original_to < original_from then .error e
              else if original_to - original_from + 1 ≤ chunk_size ∧ 0 < depth then
                .error e
              else
                fetchWindows
                  (fun cf ct => go p fuel ((f.from_block cf).to_block ct) (depth + 1))
                  chunk_size original_to original_from

/-- `get_logs_paginated` from `get_logs.rs`: issue the query; on a
"max results" error, parse the suggested range, derive the chunk size, and
walk the original range in windows of that size, recursing with `depth + 1`
on each window; beyond depth `MAX_RECURSION_DEPTH` issue the query once
without retry. -/
def get_logs_paginated {L : Type} (p : Filter → Except ProviderError (List L))
    (f : Filter) (depth : Nat) : Except ProviderError (List L) :=
  go p (MAX_RECURSION_DEPTH + 2 - depth) f depth

/-- `get_logs_with_retry` from `get_logs.rs`: the public entry point, starting
at depth `0`. -/
def get_logs_with_retry {L : Type} (p : Filter → Except ProviderError (List L))
    (f : Filter) : Except ProviderError (List L) :=
  get_logs_paginated p f 0

/-! ## The result reconciler (`report.rs`) -/

/-- `serde_json::Value`.  Objects are maps from field names to values,
modelled as association lists (serde maps have unique keys; all operations
used here act on keys, so the representation is keyed lookup/removal).
Numbers are abstracted to `Int`; none of the reconciler's logic inspects
numeric representation beyond equality. -/
inductive Json where
  | null
  | bool (b : Bool)
  | num (n : Int)
  | str (s : String)
  | arr (elems : List Json)
  | obj (fields : List (String × Json))

/-- `IGNORED_FIELDS` from `report.rs`: client-specific extension fields
stripped from both sides before comparison. -/
def IGNORED_FIELDS : List String := ["error"]

mutual

/-- `filter_ignored_fields` from `report.rs`: recursively removes every
field whose name is in `IGNORED_FIELDS` from every nested object, maps over
array elements, and leaves scalars untouched. -/
def filter_ignored_fields : Json → Json
  | .obj fields => .obj (filterObjVals fields)
  | .arr elems => .arr (filterArrVals elems)
  | other => other

/-- Array part of `filter_ignored_fields`. -/
def filterArrVals : List Json → List Json
  | [] => []
  | v :: rest => filter_ignored_fields v :: filterArrVals rest

/-- Object part of `filter_ignored_fields`: drops entries with an ignored
key (the `map.remove` pass) and filters the remaining values recursively
(the `map` pass), in one traversal. -/
def filterObjVals : List (String × Json) → List (String × Json)
  | [] => []
  | (k, v) :: rest =>
    if IGNORED_FIELDS.contains k then filterObjVals rest
    else (k, filter_ignored_fields v) :: filterObjVals rest

end

/-- Keyed lookup in an object's field list (`serde_json::Map` indexing). -/
def jlookup (k : String) : List (String × Json) → Option Json
  | [] => none
  | (k', v) :: rest => if k' = k then some v else jlookup k rest

mutual

/-- Modelled from the spec: the subset-inclusion comparison performed by the
external `assert_json_diff::assert_json_include` macro (a dependency, not
part of this repository's sources).  `actual` must contain everything
`expected` contains: for objects, every expected field must be present in
`actual` with a recursively included value; for arrays, every expected index
must exist in `actual` with a recursively included element (extra trailing
elements tolerated); scalars must be equal; differing shapes fail. -/
def json_include : Json → Json → Bool
  | .obj ma, .obj me => objInclude ma me
  | .arr la, .arr le => arrInclude la le
  | .null, .null => true
  | .bool a, .bool b => a == b
  | .num a, .num b => a == b
  | .str a, .str b => a == b
  | _, _ => false

/-- Array part of `json_include`: index-wise inclusion over the expected
elements; `actual` running out of elements fails, extra elements pass. -/
def arrInclude : List Json → List Json → Bool
  | _, [] => true
  | [], _ :: _ => false
  | a :: as, e :: es => json_include a e && arrInclude as es

/-- Object part of `json_include`: every expected field must be found in the
actual object with an included value. -/
def objInclude (ma : List (String × Json)) : List (String × Json) → Bool
  | [] => true
  | (k, ve) :: rest =>
    (match jlookup k ma with
     | some va => json_include va ve
     | none => false) && objInclude ma rest

end

/-- `verify_missing_or_mismatch` from `report.rs`: runs the inclusion check
on the two (already filtered) values and reports `some` diff exactly when it
fails; `none` means no reportable discrepancy.  (The Rust function obtains
this boolean by catching the panic of `assert_json_include`; the diff text
itself is provider output formatting and carries no further control flow.) -/
def verify_missing_or_mismatch (rpc1 rpc2 : Json) : Option Unit :=
  if json_include rpc1 rpc2 then none else some ()

/-- Modelled from the spec: `TestError` (declared in the crate root, outside
these two source files) as matched by `report`: a structural mismatch with
the two responses and optional call arguments, or a provider failure on
either side carrying its message. -/
inductive TestError where
  | Diff (rpc1 rpc2 : Json) (args : Option String)
  | Rpc1Err (err : String)
  | Rpc2Err (err : String)

/-- A single test outcome, `Result<_, TestError>` with the success payload
opaque (never inspected by `report`). -/
abbrev TestOutcome := Except TestError Unit

/-- `ReportResults`: named groups of named outcomes, insertion order
preserved. -/
abbrev ReportResults := List (String × List (String × TestOutcome))

/-- One line printed by `report`, with the fixed formatting abstracted to a
constructor per `println!` (the renderer's text is out of scope; what is
verified is which records are emitted and in which order). -/
inductive ReportLine where
  | header
  | subheader
  | groupFail (title : String)
  | groupPass (title : String)
  | testFail (name : String)
  | argsLine (args : String)
  | diffLine
  | rpcErrLine (name err : String)
  | footer
deriving DecidableEq

/-- One iteration of the inner loop of `report`: given the group's current
`passed_title`, handle one `(name, result)` pair, returning the new
`passed_title` and the lines printed. -/
def processResult (title : String) (passed_title : Bool)
    (name : String) (result : TestOutcome) : Bool × List ReportLine :=
  match result with
  | .ok _ => (passed_title, [])
  | .error (.Diff rpc1 rpc2 args) =>
    let rpc1 := filter_ignored_fields rpc1
    let rpc2 := filter_ignored_fields rpc2
    match verify_missing_or_mismatch rpc1 rpc2 with
    | some _ =>
      (false,
        (if passed_title then [ReportLine.groupFail title] else []) ++
        [ReportLine.testFail name] ++
        (match args with
         | some a => [ReportLine.argsLine a]
         | none => []) ++
        [ReportLine.diffLine])
    | none => (passed_title, [])
  | .error (.Rpc1Err err) => (false, [ReportLine.groupFail title, ReportLine.rpcErrLine name err])
  | .error (.Rpc2Err err) => (false, [ReportLine.groupFail title, ReportLine.rpcErrLine name err])

/-- The inner loop of `report` over a group's outcomes, threading
`passed_title`. -/
def processResults (title : String) (passed_title : Bool) :
    List (String × TestOutcome) → Bool × List ReportLine
  | [] => (passed_title, [])
  | (name, result) :: rest =>
    let r := processResult title passed_title name result
    let r' := processResults title r.1 rest
    (r'.1, r.2 ++ r'.2)

/-- One iteration of the outer loop of `report`: a whole group, starting
from `passed_title = true` and closing with the group-passed line when no
outcome failed. -/
def processGroup (title : String) (results : List (String × TestOutcome)) :
    Bool × List ReportLine :=
  let r := processResults title true results
  (r.1, r.2 ++ (if r.1 then [ReportLine.groupPass title] else []))

/-- The outer loop of `report`, accumulating `passed &= passed_title`. -/
def reportGroups : ReportResults → Bool × List ReportLine
  | [] => (true, [])
  | (title, results) :: rest =>
    let r := processGroup title results
    let r' := reportGroups rest
    (r.1 && r'.1, r.2 ++ r'.2)

/-- `report` from `report.rs`: prints the full report (headers, every group,
footer) and returns `Ok(())` when every group passed, `Err("Failed.")`
otherwise. -/
def report (results_by_block : ReportResults) :
    List ReportLine × Except String Unit :=
  let r := reportGroups results_by_block
  (ReportLine.header :: ReportLine.subheader :: r.2 ++ [ReportLine.footer],
   if r.1 then Except.ok () else Except.error "Failed.")

/-- The classification the spec calls a reportable failure: a provider
failure on either side, or a structural mismatch whose filtered values fail
the subset-inclusion check. -/
def reportableFailure : TestOutcome → Bool
  | .ok _ => false
  | .error (.Diff rpc1 rpc2 _) =>
    (verify_missing_or_mismatch (filter_ignored_fields rpc1)
      (filter_ignored_fields rpc2)).isSome
  | .error (.Rpc1Err _) => true
  | .error (.Rpc2Err _) => true

/-! ## The recursion equation of `get_logs_paginated` -/

/-- `get_logs_paginated` satisfies the recursion of the Rust source verbatim:
test the depth cap, issue the query, on error parse it, compute the chunk
size, resolve the original range, apply the two guards, and otherwise walk
the windows recursing at `depth + 1`.  This discharges the `fuel` encoding
once and for all. -/
theorem get_logs_paginated_eq {L : Type} (p : Filter → Except ProviderError (List L))
    (f : Filter) (depth : Nat) :
    get_logs_paginated p f depth =
      if MAX_RECURSION_DEPTH < depth then p f
      else
        match p f with
        | .ok logs => .ok logs
        | .error e =>
          match parse_max_results_error e with
          | none => .error e
          | some (suggested_from, suggested_to) =>
            match (checked_sub suggested_to suggested_from).bind
                (fun d => checked_add d 1) with
            | none => .error e
            | some chunk_size =>
              match (extract_block_range f).getD (suggested_from, suggested_to) with
              | (original_from, original_to) =>
                if original_to < original_from then .error e
                else if original_to - original_from + 1 ≤ chunk_size ∧ 0 < depth then
                  .error e
                else
                  fetchWindows
                    (fun cf ct =>
                      get_logs_paginated p ((f.from_block cf).to_block ct) (depth + 1))
                    chunk_size original_to original_from := by
  by_cases hd : MAX_RECURSION_DEPTH < depth
  · rw [if_pos hd]
    rcases Nat.lt_or_ge depth 12 with h12 | h12
    · have hdep : depth = 11 := by
        have : MAX_RECURSION_DEPTH = 10 := rfl
        omega
      subst hdep
      have hfuel : MAX_RECURSION_DEPTH + 2 - 11 = 1 := rfl
      rw [get_logs_paginated, hfuel]
      simp [go, MAX_RECURSION_DEPTH]
    · have hfuel : MAX_RECURSION_DEPTH + 2 - depth = 0 := by
        have : MAX_RECURSION_DEPTH = 10 := rfl
        omega
      rw [get_logs_paginated, hfuel, go]
  · rw [if_neg hd]
    have h2 : MAX_RECURSION_DEPTH + 2 - depth = (MAX_RECURSION_DEPTH + 1 - depth) + 1 := by
      have : MAX_RECURSION_DEPTH = 10 := rfl
      omega
    have h3 : MAX_RECURSION_DEPTH + 2 - (depth + 1) = MAX_RECURSION_DEPTH + 1 - depth := by
      have : MAX_RECURSION_DEPTH = 10 := rfl
      omega
    rw [get_logs_paginated, h2]
    simp only [get_logs_paginated, h3, go, if_neg hd]

/-! ### C5: beyond the cap, a single verbatim query -/

/-- C5: at any recursion depth strictly greater than `MAX_RECURSION_DEPTH`,
`get_logs_paginated` issues the query exactly once and returns the
provider's answer verbatim — no parsing of any error, no retry. -/
theorem beyond_cap_single_query {L : Type} (p : Filter → Except ProviderError (List L))
    (f : Filter) (depth : Nat) (h : MAX_RECURSION_DEPTH < depth) :
    get_logs_paginated p f depth = p f := by
  rw [get_logs_paginated_eq, if_pos h]

/-- Witness for C5 at depth 11, on a provider that succeeds and one that
fails: both answers come back verbatim. -/
theorem beyond_cap_single_query_witness :
    get_logs_paginated (fun _ => Except.error "boom")
        ⟨FilterBlockOption.range none none, ""⟩ 11 =
      (Except.error "boom" : Except ProviderError (List Nat)) ∧
    get_logs_paginated (fun _ => Except.ok [42])
        ⟨FilterBlockOption.range none none, ""⟩ 11 =
      (Except.ok [42] : Except ProviderError (List Nat)) :=
  ⟨beyond_cap_single_query _ _ 11 (by decide),
   beyond_cap_single_query _ _ 11 (by decide)⟩

/-! ## The window walk -/

/-- The pagination loop is the sequential execution of its window list: it
issues exactly the sub-queries of `windowList`, in order, concatenating the
results and stopping at the first error. -/
theorem fetchWindows_eq_runList {L : Type}
    (sub : Nat → Nat → Except ProviderError (List L)) (cs ot cf : Nat) :
    fetchWindows sub cs ot cf = runList sub (windowList cs ot cf) := by
  rw [fetchWindows.eq_def, windowList.eq_def]
  by_cases h : cf ≤ ot
  · simp only [if_pos h]
    by_cases hbr : U64MAX < min (saturating_add cf (cs - 1)) ot + 1
    · cases hsub : sub cf (min (saturating_add cf (cs - 1)) ot) with
      | error e => simp [runList, hbr, hsub]
      | ok l => simp [runList, hbr, hsub]
    · have ih := fetchWindows_eq_runList sub cs ot
        (min (saturating_add cf (cs - 1)) ot + 1)
      cases hsub : sub cf (min (saturating_add cf (cs - 1)) ot) with
      | error e => simp [runList, hbr, hsub]
      | ok l => simp [runList, hbr, hsub, ih]
  · simp [if_neg h, runList]
termination_by ot + 1 - cf
decreasing_by exact window_step_lt _ _ _ h hbr

/-- When every window sub-query succeeds, the walk succeeds and returns the
concatenation of the per-window results in window order. -/
theorem runList_all_ok {L : Type} (sub : Nat → Nat → Except ProviderError (List L))
    (logs : Nat → Nat → List L) :
    ∀ ws : List (Nat × Nat), (∀ w ∈ ws, sub w.1 w.2 = .ok (logs w.1 w.2)) →
      runList sub ws = .ok ((ws.map (fun w => logs w.1 w.2)).flatten) := by
  intro ws
  induction ws with
  | nil => intro _; simp [runList]
  | cons w rest ih =>
    intro h
    have hw := h w (by simp)
    have hrest := ih (fun w' hw' => h w' (by simp [hw']))
    simp [runList, hw, hrest]

/-- If the windows before `w` succeed and the sub-query for `w` fails with
`e`, the walk returns `e` — no partial results. -/
theorem runList_first_error {L : Type} (sub : Nat → Nat → Except ProviderError (List L))
    (w : Nat × Nat) (e : ProviderError) :
    ∀ ws₁ : List (Nat × Nat), ∀ ws₂ : List (Nat × Nat),
      (∀ w' ∈ ws₁, ∃ l, sub w'.1 w'.2 = .ok l) → sub w.1 w.2 = .error e →
      runList sub (ws₁ ++ w :: ws₂) = .error e := by
  intro ws₁
  induction ws₁ with
  | nil => intro ws₂ _ herr; simp [runList, herr]
  | cons a t ih =>
    intro ws₂ hok herr
    obtain ⟨l, hl⟩ := hok a (by simp)
    have := ih ws₂ (fun w' h' => hok w' (by simp [h'])) herr
    simp [runList, hl, this]

/-- Master description of `windowList` over a valid `u64` range: it starts at
`cf`, ends at `ot`, is contiguous (each window starts one past its
predecessor's end), each window is well-formed, within bounds, of size at
most `cs`, every window except the last has size exactly `cs`, the starts
strictly increase, and there are no more windows than blocks. -/
theorem windowList_spec (cs ot : Nat) (hcs : 1 ≤ cs) (hot : ot ≤ U64MAX) :
    ∀ cf : Nat, cf ≤ ot →
    (windowList cs ot cf).head?.map Prod.fst = some cf ∧
    (windowList cs ot cf).getLast?.map Prod.snd = some ot ∧
    List.Chain' (fun a b : Nat × Nat => b.1 = a.2 + 1) (windowList cs ot cf) ∧
    (∀ w ∈ windowList cs ot cf, w.1 ≤ w.2 ∧ w.2 ≤ ot ∧ w.2 + 1 - w.1 ≤ cs) ∧
    (∀ w ∈ (windowList cs ot cf).dropLast, w.2 + 1 - w.1 = cs) ∧
    List.Chain' (fun a b : Nat × Nat => a.1 < b.1) (windowList cs ot cf) ∧
    (windowList cs ot cf).length ≤ ot + 1 - cf := by
  intro cf hcf
  have hU : U64MAX = 18446744073709551615 := rfl
  have hsat : saturating_add cf (cs - 1) = min (cf + (cs - 1)) U64MAX := rfl
  have hm1 : min (cf + (cs - 1)) U64MAX = cf + (cs - 1) ∨
      min (cf + (cs - 1)) U64MAX = U64MAX := min_choice _ _
  have hm2 : min (saturating_add cf (cs - 1)) ot = saturating_add cf (cs - 1) ∨
      min (saturating_add cf (cs - 1)) ot = ot := min_choice _ _
  have hct2 : min (saturating_add cf (cs - 1)) ot ≤ ot := min_le_right _ _
  have hct1 : cf ≤ min (saturating_add cf (cs - 1)) ot := by
    rw [hsat] at hm2 ⊢
    rcases hm1 with h | h <;> rcases hm2 with h' | h' <;> omega
  rw [windowList.eq_def, if_pos hcf]
  by_cases hbr : U64MAX < min (saturating_add cf (cs - 1)) ot + 1
  · have hend : min (saturating_add cf (cs - 1)) ot = ot := by omega
    have hlen : min (saturating_add cf (cs - 1)) ot + 1 - cf ≤ cs := by
      rw [hsat] at hm2
      rcases hm1 with h | h <;> rcases hm2 with h' | h' <;> omega
    simp only [if_pos hbr]
    refine ⟨by simp, by simp [hend], by simp, ?_, by simp, by simp, by simp; omega⟩
    intro w hw
    simp only [List.mem_singleton] at hw
    subst hw
    exact ⟨hct1, hct2, hlen⟩
  · by_cases hlast : min (saturating_add cf (cs - 1)) ot = ot
    · have hnil : windowList cs ot (min (saturating_add cf (cs - 1)) ot + 1) = [] := by
        rw [windowList.eq_def]
        simp [hlast]
      have hlen : min (saturating_add cf (cs - 1)) ot + 1 - cf ≤ cs := by
        rw [hsat] at hm2
        rcases hm1 with h | h <;> rcases hm2 with h' | h' <;> omega
      simp only [if_neg hbr, hnil]
      refine ⟨by simp, by simp [hlast], by simp, ?_, by simp, by simp, by simp; omega⟩
      intro w hw
      simp only [List.mem_singleton] at hw
      subst hw
      exact ⟨hct1, hct2, hlen⟩
    · have hctlt : min (saturating_add cf (cs - 1)) ot < ot := by omega
      have hfull : min (saturating_add cf (cs - 1)) ot = cf + (cs - 1) := by
        rw [hsat] at hm2 ⊢
        rcases hm1 with h | h <;> rcases hm2 with h' | h' <;> omega
      obtain ⟨ih1, ih2, ih3, ih4, ih5, ih6, ih7⟩ :=
        windowList_spec cs ot hcs hot (min (saturating_add cf (cs - 1)) ot + 1)
          (by omega)
      have hne : windowList cs ot (min (saturating_add cf (cs - 1)) ot + 1) ≠ [] := by
        intro hn
        rw [hn] at ih1
        simp at ih1
      simp only [if_neg hbr]
      refine ⟨by simp, ?_, ?_, ?_, ?_, ?_, ?_⟩
      · rw [List.getLast?_cons]
        rcases List.getLast?_eq_getLast _ hne with h
        rw [h] at ih2 ⊢
        simpa using ih2
      · rw [List.chain'_cons']
        refine ⟨?_, ih3⟩
        intro b hb
        have : b.1 = min (saturating_add cf (cs - 1)) ot + 1 := by
          rcases hx : (windowList cs ot (min (saturating_add cf (cs - 1)) ot + 1)).head? with
            _ | y
          · rw [hx] at hb; simp at hb
          · rw [hx] at hb ih1
            simp at hb ih1
            subst hb
            exact ih1
        exact this
      · intro w hw
        rcases List.mem_cons.mp hw with hw | hw
        · subst hw
          have : min (saturating_add cf (cs - 1)) ot + 1 - cf ≤ cs := by
            rw [hfull]; omega
          exact ⟨hct1, hct2, this⟩
        · exact ih4 w hw
      · rw [List.dropLast_cons_of_ne_nil hne]
        intro w hw
        rcases List.mem_cons.mp hw with hw | hw
        · subst hw
          simp only
          rw [hfull]
          omega
        · exact ih5 w hw
      · rw [List.chain'_cons']
        refine ⟨?_, ih6⟩
        intro b hb
        have : b.1 = min (saturating_add cf (cs - 1)) ot + 1 := by
          rcases hx : (windowList cs ot (min (saturating_add cf (cs - 1)) ot + 1)).head? with
            _ | y
          · rw [hx] at hb; simp at hb
          · rw [hx] at hb ih1
            simp at hb ih1
            subst hb
            exact ih1
        simp only
        omega
      · simp only [List.length_cons]
        omega
termination_by cf => ot + 1 - cf
decreasing_by exact window_step_lt _ _ _ (by assumption) (by assumption)

/-! ### C1: the windows partition the original range -/

/-- C1: for a concrete original range `[F, T]` with `F ≤ T` (within `u64`)
and a suggested chunk size `C` with `1 ≤ C < T - F + 1`, the windows issued
by the pagination loop partition `[F, T]` exactly: the first starts at `F`,
the last ends at `T`, each window starts one past its predecessor's end (so
they are contiguous and non-overlapping), every window except possibly the
last has length exactly `C` and none exceeds `C`; and when every sub-query
succeeds, the walk returns the per-window results concatenated in window
order. -/
theorem pagination_partitions_range (F T C : Nat) (hFT : F ≤ T) (hC1 : 1 ≤ C)
    (_hC2 : C < T - F + 1) (hT : T ≤ U64MAX) :
    (windowList C T F).head?.map Prod.fst = some F ∧
    (windowList C T F).getLast?.map Prod.snd = some T ∧
    List.Chain' (fun a b : Nat × Nat => b.1 = a.2 + 1) (windowList C T F) ∧
    (∀ w ∈ windowList C T F, w.1 ≤ w.2 ∧ w.2 ≤ T ∧ w.2 + 1 - w.1 ≤ C) ∧
    (∀ w ∈ (windowList C T F).dropLast, w.2 + 1 - w.1 = C) ∧
    (∀ (L : Type) (sub : Nat → Nat → Except ProviderError (List L))
      (logs : Nat → Nat → List L),
      (∀ w ∈ windowList C T F, sub w.1 w.2 = Except.ok (logs w.1 w.2)) →
      fetchWindows sub C T F =
        Except.ok (((windowList C T F).map (fun w => logs w.1 w.2)).flatten)) := by
  obtain ⟨h1, h2, h3, h4, h5, _h6, _h7⟩ := windowList_spec C T hC1 hT F hFT
  refine ⟨h1, h2, h3, h4, h5, ?_⟩
  intro L sub logs hok
  rw [fetchWindows_eq_runList]
  exact runList_all_ok sub logs _ hok

/-- Witness for C1 with `F = 0`, `T = 10`, `C = 3`: the windows are
`[0,2], [3,5], [6,8], [9,10]` and a succeeding provider's results come back
concatenated in window order. -/
theorem pagination_partitions_range_witness :
    (windowList 3 10 0).head?.map Prod.fst = some 0 ∧
    (windowList 3 10 0).getLast?.map Prod.snd = some 10 ∧
    fetchWindows (fun a b => Except.ok [(a, b)]) 3 10 0 =
      Except.ok [(0, 2), (3, 5), (6, 8), (9, 10)] := by
  have hw : windowList 3 10 0 = [(0, 2), (3, 5), (6, 8), (9, 10)] := by
    simp [windowList, saturating_add, U64MAX]
  obtain ⟨h1, h2, _h3, _h4, _h5, h6⟩ :=
    pagination_partitions_range 0 10 3 (by decide) (by decide) (by decide)
      (by decide)
  refine ⟨h1, h2, ?_⟩
  have hr := h6 (Nat × Nat) (fun a b => Except.ok [(a, b)])
    (fun a b => [(a, b)]) (fun w _ => rfl)
  rw [hr, hw]
  rfl

/-! ### C7: a failing window aborts the whole walk -/

/-- C7: during a paginated walk, if the sub-queries of the windows before
`w` succeed and the sub-query of window `w` returns an error, the entire
walk returns that window's error — no partial sequence of logs is
returned. -/
theorem window_error_aborts_walk (L : Type)
    (sub : Nat → Nat → Except ProviderError (List L)) (cs ot cf : Nat)
    (ws₁ ws₂ : List (Nat × Nat)) (w : Nat × Nat) (e : ProviderError)
    (hws : windowList cs ot cf = ws₁ ++ w :: ws₂)
    (hok : ∀ w' ∈ ws₁, ∃ l, sub w'.1 w'.2 = Except.ok l)
    (herr : sub w.1 w.2 = Except.error e) :
    fetchWindows sub cs ot cf = Except.error e := by
  rw [fetchWindows_eq_runList, hws]
  exact runList_first_error sub w e ws₁ ws₂ hok herr

/-- Witness for C7: chunk size 1 over `[1, 2]`; the first window succeeds,
the second fails, and the walk returns the second window's error. -/
theorem window_error_aborts_walk_witness :
    fetchWindows
      (fun a _ => if a = 2 then Except.error "boom" else Except.ok ([] : List Nat))
      1 2 1 = Except.error "boom" := by
  have hw : windowList 1 2 1 = [(1, 1), (2, 2)] := by
    simp [windowList, saturating_add, U64MAX]
  exact window_error_aborts_walk Nat _ 1 2 1 [(1, 1)] [] (2, 2) "boom" hw
    (fun w' hw' => by
      simp only [List.mem_singleton] at hw'
      subst hw'
      exact ⟨[], rfl⟩)
    rfl

/-! ### C10: the loop makes strict progress and terminates -/

/-- C10: the window loop terminates on every input.  The chunk size obtained
from checked subtraction followed by checked `+ 1` is always at least `1`;
with any positive chunk size the window starts strictly increase, the number
of windows never exceeds the number of blocks in the range, and when the
original upper bound is `u64::MAX` itself the loop still produces a finite
window sequence ending exactly at `u64::MAX` (exiting through the
`checked_add(1)` overflow break rather than wrapping around). -/
theorem window_loop_terminates :
    (∀ sf st cs, (checked_sub st sf).bind (fun d => checked_add d 1) = some cs →
      1 ≤ cs) ∧
    (∀ C T F, 1 ≤ C → F ≤ T → T ≤ U64MAX →
      List.Chain' (fun a b : Nat × Nat => a.1 < b.1) (windowList C T F) ∧
      (windowList C T F).length ≤ T + 1 - F) ∧
    (∀ C F, 1 ≤ C → F ≤ U64MAX →
      (windowList C U64MAX F).getLast?.map Prod.snd = some U64MAX) := by
  refine ⟨?_, ?_, ?_⟩
  · intro sf st cs h
    unfold checked_sub checked_add at h
    by_cases h1 : sf ≤ st
    · simp only [if_pos h1, Option.bind] at h
      by_cases h2 : st - sf + 1 ≤ U64MAX
      · simp [if_pos h2] at h
        omega
      · simp [if_neg h2] at h
    · simp [if_neg h1, Option.bind] at h
  · intro C T F hC hFT hT
    obtain ⟨_, _, _, _, _, h6, h7⟩ := windowList_spec C T hC hT F hFT
    exact ⟨h6, h7⟩
  · intro C F hC hF
    obtain ⟨_, h2, _, _, _, _, _⟩ := windowList_spec C U64MAX hC (le_refl _) F hF
    exact h2

/-- Witness for C10: the parsed chunk size for the suggested range `5-7` is
the positive `3`; with chunk 4 the windows over `[0, 10]` have strictly
increasing starts and no more windows than blocks; and a two-block range
ending at `u64::MAX` still ends its (finite) window list at `u64::MAX`. -/
theorem window_loop_terminates_witness :
    1 ≤ 3 ∧
    List.Chain' (fun a b : Nat × Nat => a.1 < b.1) (windowList 4 10 0) ∧
    (windowList 4 10 0).length ≤ 11 ∧
    (windowList 2 U64MAX (U64MAX - 1)).getLast?.map Prod.snd = some U64MAX := by
  obtain ⟨h1, h2, h3⟩ := window_loop_terminates
  obtain ⟨h4, h5⟩ := h2 4 10 0 (by decide) (by decide) (by decide)
  refine ⟨h1 5 7 3 (by decide), h4, h5, h3 2 (U64MAX - 1) (by decide) (by omega)⟩

/-! ### C6: the no-progress guard -/

/-- C6: when the provider fails with a parseable "max results" error whose
suggested chunk size is at least the original range length, every retry
invocation (depth `> 0`, up to the cap) fails with the original provider
error instead of recursing, while at depth `0` the guard does not apply and
the call proceeds to walk the windows. -/
theorem no_progress_guard (L : Type) (p : Filter → Except ProviderError (List L))
    (f : Filter) (e : ProviderError) (sf st cs of ot : Nat)
    (hp : p f = Except.error e)
    (hparse : parse_max_results_error e = some (sf, st))
    (hcs : (checked_sub st sf).bind (fun d => checked_add d 1) = some cs)
    (hr : (extract_block_range f).getD (sf, st) = (of, ot))
    (hle : of ≤ ot)
    (hbig : ot - of + 1 ≤ cs) :
    (∀ depth, 0 < depth → depth ≤ MAX_RECURSION_DEPTH →
      get_logs_paginated p f depth = Except.error e) ∧
    get_logs_paginated p f 0 =
      fetchWindows
        (fun cf ct => get_logs_paginated p ((f.from_block cf).to_block ct) 1)
        cs ot of := by
  have hM : MAX_RECURSION_DEPTH = 10 := rfl
  constructor
  · intro depth hd hcap
    rw [get_logs_paginated_eq]
    rw [if_neg (show ¬ MAX_RECURSION_DEPTH < depth by omega)]
    simp only [hp, hparse, hcs, hr]
    rw [if_neg (show ¬ ot < of by omega),
      if_pos (show ot - of + 1 ≤ cs ∧ 0 < depth from ⟨hbig, hd⟩)]
  · rw [get_logs_paginated_eq]
    rw [if_neg (show ¬ MAX_RECURSION_DEPTH < 0 by omega)]
    simp only [hp, hparse, hcs, hr]
    rw [if_neg (show ¬ ot < of by omega),
      if_neg (show ¬ (ot - of + 1 ≤ cs ∧ 0 < 0) by omega)]

/-- Witness for C6: a provider that always reports a suggested range `5-7`
(chunk size 3) for a query whose concrete range `[10, 12]` also has length
3; the retry at depth 1 fails with the original error. -/
theorem no_progress_guard_witness :
    get_logs_paginated
      (fun _ => Except.error
        "query exceeds max results 20000, retry with the range 5-7" :
        Filter → Except ProviderError (List Nat))
      ⟨FilterBlockOption.range (some (BlockNumberOrTag.number 10))
        (some (BlockNumberOrTag.number 12)), ""⟩ 1 =
      Except.error "query exceeds max results 20000, retry with the range 5-7" :=
  (no_progress_guard Nat
    (fun _ => Except.error
      "query exceeds max results 20000, retry with the range 5-7")
    ⟨FilterBlockOption.range (some (BlockNumberOrTag.number 10))
      (some (BlockNumberOrTag.number 12)), ""⟩
    "query exceeds max results 20000, retry with the range 5-7"
    5 7 3 10 12 rfl (by decide) (by decide) rfl
    (by decide) (by decide)).1 1 (by decide) (by decide)

/-! ### C8: symbolic bounds fall back to the suggested range -/

/-- C8: `extract_block_range` yields a range exactly when both bounds are
concrete block numbers (so any symbolic tag, missing bound, or block-hash
filter yields none); and when it yields none, a failing depth-0 query with
a parseable suggestion `[sf, st]` degenerates to a single retry chunk
covering exactly the suggested range. -/
theorem symbolic_range_fallback (L : Type)
    (p : Filter → Except ProviderError (List L)) (f : Filter)
    (e : ProviderError) (sf st : Nat)
    (hp : p f = Except.error e)
    (hparse : parse_max_results_error e = some (sf, st))
    (hle : sf ≤ st) (hst : st ≤ U64MAX) (hno : st - sf < U64MAX)
    (hext : extract_block_range f = none) :
    (∀ (f' : Filter) (n m : Nat), extract_block_range f' = some (n, m) ↔
      f'.block_option = FilterBlockOption.range (some (BlockNumberOrTag.number n))
        (some (BlockNumberOrTag.number m))) ∧
    get_logs_paginated p f 0 =
      get_logs_paginated p ((f.from_block sf).to_block st) 1 := by
  constructor
  · intro f' n m
    rcases f' with ⟨bo, r⟩
    rcases bo with ⟨fb, tb⟩ | h
    · rcases fb with _ | fb
      · simp [extract_block_range, FilterBlockOption.get_from_block,
          FilterBlockOption.get_to_block]
      · rcases tb with _ | tb
        · rcases fb with fn | _ | _ | _ | _ | _ <;>
            simp [extract_block_range, FilterBlockOption.get_from_block,
              FilterBlockOption.get_to_block]
        · rcases fb with fn | _ | _ | _ | _ | _ <;>
            rcases tb with tn | _ | _ | _ | _ | _ <;>
            simp [extract_block_range, FilterBlockOption.get_from_block,
              FilterBlockOption.get_to_block]
    · simp [extract_block_range, FilterBlockOption.get_from_block,
        FilterBlockOption.get_to_block]
  · have hcs : (checked_sub st sf).bind (fun d => checked_add d 1) =
        some (st - sf + 1) := by
      unfold checked_sub checked_add
      rw [if_pos hle]
      simp only [Option.bind]
      rw [if_pos (by omega)]
    have hwl : windowList (st - sf + 1) st sf = [(sf, st)] := by
      have hsat : saturating_add sf (st - sf + 1 - 1) = min (sf + (st - sf)) U64MAX :=
        rfl
      have hct : min (saturating_add sf (st - sf + 1 - 1)) st = st := by
        rw [hsat]
        have h1 : min (sf + (st - sf)) U64MAX = sf + (st - sf) ∨
            min (sf + (st - sf)) U64MAX = U64MAX := min_choice _ _
        have h2 : min (min (sf + (st - sf)) U64MAX) st = min (sf + (st - sf)) U64MAX ∨
            min (min (sf + (st - sf)) U64MAX) st = st := min_choice _ _
        omega
      rw [windowList.eq_def, if_pos hle]
      simp only [hct]
      by_cases hbr : U64MAX < st + 1
      · rw [if_pos hbr]
      · rw [if_neg hbr]
        have : windowList (st - sf + 1) st (st + 1) = [] := by
          rw [windowList.eq_def, if_neg (by omega)]
        rw [this]
    rw [get_logs_paginated_eq]
    rw [if_neg (show ¬ MAX_RECURSION_DEPTH < 0 by decide)]
    simp only [hp, hparse, hcs, hext, Option.getD]
    rw [if_neg (show ¬ st < sf by omega),
      if_neg (show ¬ (st - sf + 1 ≤ st - sf + 1 ∧ 0 < 0) by omega),
      fetchWindows_eq_runList, hwl]
    cases hq : get_logs_paginated p ((f.from_block sf).to_block st) 1 with
    | error e' => simp [runList, hq]
    | ok l => simp [runList, hq]

/-- Witness for C8: a filter whose lower bound is the symbolic tag `latest`
(so `extract_block_range` gives nothing) and a provider that always fails
suggesting the range `5-7`: the depth-0 call equals the single retry over
exactly `[5, 7]`. -/
theorem symbolic_range_fallback_witness :
    get_logs_paginated
      (fun _ => Except.error "max results, retry with the range 5-7" :
        Filter → Except ProviderError (List Nat))
      ⟨FilterBlockOption.range (some BlockNumberOrTag.latest)
        (some (BlockNumberOrTag.number 5)), ""⟩ 0 =
      get_logs_paginated
        (fun _ => Except.error "max results, retry with the range 5-7")
        ((Filter.from_block
            ⟨FilterBlockOption.range (some BlockNumberOrTag.latest)
              (some (BlockNumberOrTag.number 5)), ""⟩ 5).to_block 7) 1 :=
  (symbolic_range_fallback Nat
    (fun _ => Except.error "max results, retry with the range 5-7")
    ⟨FilterBlockOption.range (some BlockNumberOrTag.latest)
      (some (BlockNumberOrTag.number 5)), ""⟩
    "max results, retry with the range 5-7"
    5 7 rfl (by decide) (by decide) (by decide) (by decide) rfl).2

/-! ### C9: the field filter is idempotent -/

mutual

/-- Idempotence of the field filter at a single value. -/
theorem filter_ignored_fields_idem : (v : Json) →
    filter_ignored_fields (filter_ignored_fields v) = filter_ignored_fields v
  | .null => by simp only [filter_ignored_fields]
  | .bool _ => by simp only [filter_ignored_fields]
  | .num _ => by simp only [filter_ignored_fields]
  | .str _ => by simp only [filter_ignored_fields]
  | .arr l => by
    simp only [filter_ignored_fields]
    rw [filterArrVals_idem l]
  | .obj m => by
    simp only [filter_ignored_fields]
    rw [filterObjVals_idem m]

/-- Idempotence of the field filter over array elements. -/
theorem filterArrVals_idem : (l : List Json) →
    filterArrVals (filterArrVals l) = filterArrVals l
  | [] => by simp only [filterArrVals]
  | v :: rest => by
    simp only [filterArrVals]
    rw [filter_ignored_fields_idem v, filterArrVals_idem rest]

/-- Idempotence of the field filter over object entries. -/
theorem filterObjVals_idem : (m : List (String × Json)) →
    filterObjVals (filterObjVals m) = filterObjVals m
  | [] => by simp only [filterObjVals]
  | (k, v) :: rest => by
    by_cases hk : IGNORED_FIELDS.contains k
    · simp only [filterObjVals, if_pos hk]
      exact filterObjVals_idem rest
    · simp only [filterObjVals, if_neg hk]
      rw [filter_ignored_fields_idem v, filterObjVals_idem rest]

end

/-- C9: the field filter is idempotent — filtering an already filtered value
returns it unchanged, at every nesting depth. -/
theorem filter_ignored_fields_idempotent (v : Json) :
    filter_ignored_fields (filter_ignored_fields v) = filter_ignored_fields v :=
  filter_ignored_fields_idem v

/-! ### C3: subset-inclusion is asymmetric -/

/-- The reported verdict is the negation of the inclusion check. -/
theorem verify_isSome (a e : Json) :
    (verify_missing_or_mismatch a e).isSome = !json_include a e := by
  unfold verify_missing_or_mismatch
  by_cases h : json_include a e <;> simp [h]

/-- `jlookup` misses exactly when no entry carries the key. -/
theorem jlookup_eq_none_iff (k : String) :
    ∀ m : List (String × Json), jlookup k m = none ↔ ∀ p ∈ m, p.1 ≠ k := by
  intro m
  induction m with
  | nil => simp [jlookup]
  | cons p rest ih =>
    rcases p with ⟨k', v⟩
    by_cases hk : k' = k
    · subst hk
      simp [jlookup, ih]
    · simp [jlookup, hk, ih]

/-- The object side of the inclusion check holds exactly when every expected
entry is found in the actual object with an included value. -/
theorem objInclude_eq_true_iff (ma : List (String × Json)) :
    ∀ me : List (String × Json), objInclude ma me = true ↔
      ∀ p ∈ me, ∃ va, jlookup p.1 ma = some va ∧ json_include va p.2 = true := by
  intro me
  induction me with
  | nil => simp [objInclude]
  | cons p rest ih =>
    rcases p with ⟨k, ve⟩
    rw [objInclude]
    rw [Bool.and_eq_true, ih]
    constructor
    · rintro ⟨h1, h2⟩ q hq
      rcases List.mem_cons.mp hq with hq | hq
      · subst hq
        rcases hl : jlookup k ma with _ | va
        · rw [hl] at h1
          exact absurd h1 (by simp)
        · rw [hl] at h1
          exact ⟨va, rfl, h1⟩
      · exact h2 q hq
    · intro h
      constructor
      · obtain ⟨va, hva, hinc⟩ := h (k, ve) (by simp)
        rw [hva]
        exact hinc
      · intro q hq
        exact h q (by simp [hq])

/-- Entries of the actual object with a fresh key are invisible to the
inclusion check. -/
theorem objInclude_cons_fresh (k : String) (v : Json) (ma : List (String × Json)) :
    ∀ me : List (String × Json), jlookup k me = none →
      objInclude ((k, v) :: ma) me = objInclude ma me := by
  intro me
  induction me with
  | nil => intro _; simp [objInclude]
  | cons p rest ih =>
    rcases p with ⟨k', ve⟩
    intro h
    rw [jlookup] at h
    by_cases hk : k' = k
    · rw [if_pos hk] at h
      exact absurd h (by simp)
    · rw [if_neg hk] at h
      rw [objInclude, objInclude, ih h]
      have : jlookup k' ((k, v) :: ma) = jlookup k' ma := by
        rw [jlookup, if_neg (fun hkk => hk hkk.symm)]
      rw [this]

/-- C3: the structural comparison of filtered values is asymmetric
subset-inclusion.  An extra field present only in `actual` never changes the
verdict; `actual` missing a field present in `expected` always yields a
reportable mismatch; `actual` holding a non-included value for a field also
present in `expected` always yields a reportable mismatch; and conversely a
reportable mismatch between two objects always exhibits an expected field
that is missing from or non-included in `actual`. -/
theorem subset_inclusion_asymmetric (ma me : List (String × Json)) :
    (∀ k v, jlookup k me = none →
      verify_missing_or_mismatch (Json.obj ((k, v) :: ma)) (Json.obj me) =
        verify_missing_or_mismatch (Json.obj ma) (Json.obj me)) ∧
    (∀ k ve, (k, ve) ∈ me → jlookup k ma = none →
      (verify_missing_or_mismatch (Json.obj ma) (Json.obj me)).isSome = true) ∧
    (∀ k va ve, (k, ve) ∈ me → jlookup k ma = some va →
      json_include va ve = false →
      (verify_missing_or_mismatch (Json.obj ma) (Json.obj me)).isSome = true) ∧
    ((verify_missing_or_mismatch (Json.obj ma) (Json.obj me)).isSome = true →
      ∃ p ∈ me, jlookup p.1 ma = none ∨
        ∃ va, jlookup p.1 ma = some va ∧ json_include va p.2 = false) := by
  have hobj : ∀ mb : List (String × Json),
      json_include (Json.obj mb) (Json.obj me) = objInclude mb me := by
    intro mb
    simp [json_include]
  refine ⟨?_, ?_, ?_, ?_⟩
  · intro k v hk
    unfold verify_missing_or_mismatch
    rw [hobj, hobj, objInclude_cons_fresh k v ma me hk]
  · intro k ve hmem hnone
    rw [verify_isSome, hobj]
    rcases h : objInclude ma me with _ | _
    · simp
    · obtain ⟨va, hva, _⟩ := (objInclude_eq_true_iff ma me).mp h (k, ve) hmem
      rw [hnone] at hva
      exact absurd hva (by simp)
  · intro k va ve hmem hsome hninc
    rw [verify_isSome, hobj]
    rcases h : objInclude ma me with _ | _
    · simp
    · obtain ⟨va', hva', hinc⟩ := (objInclude_eq_true_iff ma me).mp h (k, ve) hmem
      rw [hsome] at hva'
      have : va' = va := by
        injection hva' with h'
        exact h'.symm
      rw [this] at hinc
      rw [hinc] at hninc
      exact absurd hninc (by simp)
  · intro h
    rw [verify_isSome, hobj] at h
    have hfalse : objInclude ma me = false := by
      rcases hx : objInclude ma me with _ | _
      · rfl
      · rw [hx] at h
        exact absurd h (by simp)
    have : ¬ ∀ p ∈ me, ∃ va, jlookup p.1 ma = some va ∧ json_include va p.2 = true := by
      intro hall
      rw [(objInclude_eq_true_iff ma me).mpr hall] at hfalse
      exact absurd hfalse (by simp)
    push_neg at this
    obtain ⟨p, hp, hnot⟩ := this
    refine ⟨p, hp, ?_⟩
    rcases hl : jlookup p.1 ma with _ | va
    · exact Or.inl rfl
    · refine Or.inr ⟨va, rfl, ?_⟩
      have := hnot va hl
      rcases hi : json_include va p.2 with _ | _
      · rfl
      · exact absurd hi this

/-- Witness for C3: the empty actual object is missing the expected field
`"a"`, so the mismatch is reportable; and adding the extra field `"b"` to a
complete actual object leaves the verdict unchanged (not reportable). -/
theorem subset_inclusion_asymmetric_witness :
    (verify_missing_or_mismatch (Json.obj []) (Json.obj [("a", Json.num 1)])).isSome =
      true ∧
    verify_missing_or_mismatch (Json.obj [("b", Json.num 2), ("a", Json.num 1)])
        (Json.obj [("a", Json.num 1)]) =
      verify_missing_or_mismatch (Json.obj [("a", Json.num 1)])
        (Json.obj [("a", Json.num 1)]) :=
  ⟨(subset_inclusion_asymmetric [] [("a", Json.num 1)]).2.1 "a" (Json.num 1)
      (by simp) rfl,
   (subset_inclusion_asymmetric [("a", Json.num 1)] [("a", Json.num 1)]).1 "b"
      (Json.num 2) (by simp [jlookup])⟩

/-! ### C4: the report reaches every group and fails iff one failed -/

/-- Handling one outcome lands on `passed_title && !reportable`. -/
theorem processResult_passed (title name : String) (pt : Bool) (r : TestOutcome) :
    (processResult title pt name r).1 = (pt && !reportableFailure r) := by
  rcases r with err | _
  · rcases err with ⟨rpc1, rpc2, args⟩ | e | e
    · rcases hv : verify_missing_or_mismatch (filter_ignored_fields rpc1)
        (filter_ignored_fields rpc2) with _ | u
      · simp [processResult, reportableFailure, hv]
      · simp [processResult, reportableFailure, hv]
    · simp [processResult, reportableFailure]
    · simp [processResult, reportableFailure]
  · simp [processResult, reportableFailure]

/-- The inner loop of `report` conjoins the non-reportability of every
outcome in the group onto the incoming `passed_title`. -/
theorem processResults_passed (title : String) :
    ∀ (rs : List (String × TestOutcome)) (pt : Bool),
      (processResults title pt rs).1 =
        (pt && rs.all (fun nr => !reportableFailure nr.2)) := by
  intro rs
  induction rs with
  | nil => intro pt; simp [processResults]
  | cons nr rest ih =>
    intro pt
    rcases nr with ⟨name, r⟩
    rw [processResults]
    simp only
    rw [ih, processResult_passed]
    simp [Bool.and_assoc]

/-- A group passes exactly when none of its outcomes is a reportable
failure. -/
theorem processGroup_passed (title : String) (rs : List (String × TestOutcome)) :
    (processGroup title rs).1 = rs.all (fun nr => !reportableFailure nr.2) := by
  rw [processGroup]
  simp only
  rw [processResults_passed]
  simp

/-- The whole run passes exactly when every group passes. -/
theorem reportGroups_passed :
    ∀ gs : ReportResults,
      (reportGroups gs).1 =
        gs.all (fun g => g.2.all (fun nr => !reportableFailure nr.2)) := by
  intro gs
  induction gs with
  | nil => simp [reportGroups]
  | cons g rest ih =>
    rcases g with ⟨title, rs⟩
    rw [reportGroups]
    simp only
    rw [ih, processGroup_passed]
    simp

/-- If a group's inner loop ends failed, either it started failed or the
group-failed line was printed inside it. -/
theorem processResults_groupFail (title : String) :
    ∀ (rs : List (String × TestOutcome)) (pt : Bool),
      (processResults title pt rs).1 = false →
      pt = false ∨ ReportLine.groupFail title ∈ (processResults title pt rs).2 := by
  intro rs
  induction rs with
  | nil =>
    intro pt h
    rw [processResults] at h
    exact Or.inl h
  | cons nr rest ih =>
    intro pt h
    rcases nr with ⟨name, r⟩
    rw [processResults] at h ⊢
    simp only at h ⊢
    rcases ih (processResult title pt name r).1 h with h1 | h1
    · rcases r with err | _
      · rcases err with ⟨rpc1, rpc2, args⟩ | e | e
        · rcases hv : verify_missing_or_mismatch (filter_ignored_fields rpc1)
            (filter_ignored_fields rpc2) with _ | u
          · simp only [processResult, hv] at h1 ⊢
            exact Or.inl h1
          · rcases hpt : pt with _ | _
            · exact Or.inl rfl
            · refine Or.inr ?_
              simp [processResult, hv, hpt]
        · refine Or.inr ?_
          simp [processResult]
        · refine Or.inr ?_
          simp [processResult]
      · simp only [processResult] at h1 ⊢
        exact Or.inl h1
    · exact Or.inr (by simp [h1])

/-- Every group gets its verdict line: passed or failed. -/
theorem processGroup_line (title : String) (rs : List (String × TestOutcome)) :
    ReportLine.groupPass title ∈ (processGroup title rs).2 ∨
    ReportLine.groupFail title ∈ (processGroup title rs).2 := by
  rw [processGroup]
  simp only
  rcases hp : (processResults title true rs).1 with _ | _
  · rcases processResults_groupFail title rs true hp with h | h
    · exact absurd h (by simp)
    · exact Or.inr (by simp [h])
  · exact Or.inl (by simp [hp])

/-- Lines printed for a member group appear in the whole run's output. -/
theorem reportGroups_lines_mono :
    ∀ (gs : ReportResults) (g : String × List (String × TestOutcome)), g ∈ gs →
      ∀ x ∈ (processGroup g.1 g.2).2, x ∈ (reportGroups gs).2 := by
  intro gs
  induction gs with
  | nil => intro g hg; exact absurd hg (by simp)
  | cons g' rest ih =>
    intro g hg x hx
    rcases g' with ⟨title, rs⟩
    rw [reportGroups]
    simp only [List.mem_append]
    rcases List.mem_cons.mp hg with hg | hg
    · subst hg
      exact Or.inl hx
    · exact Or.inr (ih g hg x hx)

/-- C4: `report` returns `Ok` exactly when no group contains a reportable
failure (a provider failure on either side, or a structural mismatch whose
filtered values fail subset-inclusion), and regardless of failures every
group is traversed and receives a verdict line in the printed report — no
short-circuit on the first failure. -/
theorem report_fst (groups : ReportResults) :
    (report groups).1 =
      ReportLine.header :: ReportLine.subheader ::
        (reportGroups groups).2 ++ [ReportLine.footer] := rfl

/-- The verdict of `report` is the conjunction computed by the group loop. -/
theorem report_snd (groups : ReportResults) :
    (report groups).2 =
      if (reportGroups groups).1 then Except.ok () else Except.error "Failed." := rfl

/-- C4: `report` returns `Ok` exactly when no group contains a reportable
failure (a provider failure on either side, or a structural mismatch whose
filtered values fail subset-inclusion), and regardless of failures every
group is traversed and receives a verdict line in the printed report — no
short-circuit on the first failure. -/
theorem report_characterization (groups : ReportResults) :
    ((report groups).2 = Except.ok () ↔
      ∀ g ∈ groups, ∀ nr ∈ g.2, reportableFailure nr.2 = false) ∧
    (∀ g ∈ groups,
      ReportLine.groupPass g.1 ∈ (report groups).1 ∨
      ReportLine.groupFail g.1 ∈ (report groups).1) := by
  constructor
  · rw [report_snd, reportGroups_passed]
    constructor
    · intro h g hg nr hnr
      by_cases hall :
          groups.all (fun g => g.2.all (fun nr => !reportableFailure nr.2)) = true
      · rw [List.all_eq_true] at hall
        have h1 := hall g hg
        rw [List.all_eq_true] at h1
        have h2 := h1 nr hnr
        simpa using h2
      · rw [if_neg hall] at h
        exact absurd h (by simp)
    · intro h
      have hall :
          groups.all (fun g => g.2.all (fun nr => !reportableFailure nr.2)) = true := by
        rw [List.all_eq_true]
        intro g hg
        rw [List.all_eq_true]
        intro nr hnr
        simp [h g hg nr hnr]
      rw [if_pos hall]
  · intro g hg
    rcases processGroup_line g.1 g.2 with h | h
    · refine Or.inl ?_
      rw [report_fst]
      have hm := reportGroups_lines_mono groups g hg _ h
      simp [hm]
    · refine Or.inr ?_
      rw [report_fst]
      have hm := reportGroups_lines_mono groups g hg _ h
      simp [hm]

/-- Witness for C4: a run with one passing group returns `Ok` and prints the
group-passed line. -/
theorem report_characterization_witness :
    (report [("g", [("t", Except.ok ())])]).2 = Except.ok () ∧
    (ReportLine.groupPass "g" ∈ (report [("g", [("t", Except.ok ())])]).1 ∨
     ReportLine.groupFail "g" ∈ (report [("g", [("t", Except.ok ())])]).1) := by
  obtain ⟨h1, h2⟩ := report_characterization [("g", [("t", Except.ok ())])]
  refine ⟨h1.mpr ?_, h2 ("g", [("t", Except.ok ())]) (by simp)⟩
  intro g hg nr hnr
  simp only [List.mem_singleton] at hg
  subst hg
  simp only [List.mem_singleton] at hnr
  subst hnr
  rfl

/-! ### C2: the accepted grammar of `parse_max_results_error` -/

/-- `startsWith` is prefix decomposition. -/
theorem startsWith_iff : ∀ (pat s : List Char),
    startsWith pat s = true ↔ ∃ r, s = pat ++ r := by
  intro pat
  induction pat with
  | nil => intro s; simp [startsWith]
  | cons p ps ih =>
    intro s
    cases s with
    | nil =>
      simp only [startsWith]
      constructor
      · intro h; exact absurd h (by simp)
      · rintro ⟨r, hr⟩; exact absurd hr (by simp)
    | cons c cs =>
      rw [startsWith, Bool.and_eq_true, beq_iff_eq, ih cs]
      constructor
      · rintro ⟨hpc, r, hr⟩
        exact ⟨r, by rw [hpc, hr]; rfl⟩
      · rintro ⟨r, hr⟩
        injection hr with h1 h2
        exact ⟨h1.symm, r, h2⟩

/-- If `afterFirst` finds nothing, the pattern occurs nowhere. -/
theorem afterFirst_none (pat : List Char) :
    ∀ msg : List Char, afterFirst pat msg = none →
      ∀ i, occursAt pat msg i = false := by
  intro msg
  induction msg with
  | nil =>
    intro h i
    rw [afterFirst] at h
    rcases hs : startsWith pat [] with _ | _
    · rw [occursAt, List.drop_nil]
      exact hs
    · rw [if_pos hs] at h
      exact absurd h (by simp)
  | cons c rest ih =>
    intro h i
    rw [afterFirst] at h
    rcases hs : startsWith pat (c :: rest) with _ | _
    · rw [if_neg (by simp [hs])] at h
      cases i with
      | zero => rw [occursAt, List.drop_zero]; exact hs
      | succ i' => rw [occursAt, List.drop_succ_cons]; exact ih h i'
    · rw [if_pos hs] at h
      exact absurd h (by simp)

/-- When `afterFirst` finds the pattern, it returns the suffix just past the
leftmost occurrence. -/
theorem afterFirst_some (pat : List Char) :
    ∀ msg r : List Char, afterFirst pat msg = some r →
      ∃ j, j ≤ msg.length ∧ occursAt pat msg j = true ∧
        (∀ j' < j, occursAt pat msg j' = false) ∧
        r = msg.drop (j + pat.length) := by
  intro msg
  induction msg with
  | nil =>
    intro r h
    rw [afterFirst] at h
    rcases hs : startsWith pat [] with _ | _
    · rw [if_neg (by simp [hs])] at h
      exact absurd h (by simp)
    · rw [if_pos hs] at h
      injection h with h
      refine ⟨0, by simp, ?_, fun j' hj' => absurd hj' (by omega), ?_⟩
      · rw [occursAt, List.drop_nil]; exact hs
      · rw [← h, Nat.zero_add, List.drop_nil]
  | cons c rest ih =>
    intro r h
    rw [afterFirst] at h
    rcases hs : startsWith pat (c :: rest) with _ | _
    · rw [if_neg (by simp [hs])] at h
      obtain ⟨j, hj1, hj2, hj3, hj4⟩ := ih r h
      refine ⟨j + 1, by simp; omega, ?_, ?_, ?_⟩
      · rw [occursAt, List.drop_succ_cons]; exact hj2
      · intro j' hj'
        cases j' with
        | zero => rw [occursAt, List.drop_zero]; exact hs
        | succ k =>
          rw [occursAt, List.drop_succ_cons]
          exact hj3 k (by omega)
      · rw [hj4, show j + 1 + pat.length = (j + pat.length) + 1 from by omega,
          List.drop_succ_cons]
    · rw [if_pos hs] at h
      injection h with h
      refine ⟨0, by simp, ?_, fun j' hj' => absurd hj' (by omega), ?_⟩
      · rw [occursAt, List.drop_zero]; exact hs
      · rw [← h, Nat.zero_add]

/-- Dropping the digit prefix's length is dropping the digit prefix. -/
theorem drop_length_takeWhile (p : Char → Bool) :
    ∀ s : List Char, s.drop (s.takeWhile p).length = s.dropWhile p := by
  intro s
  induction s with
  | nil => rfl
  | cons c cs ih =>
    rcases hc : p c with _ | _
    · simp [List.takeWhile_cons, List.dropWhile_cons, hc]
    · simp [List.takeWhile_cons, List.dropWhile_cons, hc, ih]

/-- The digit-and-dash run decomposes as the digit run followed by the
digit-and-dash run of the rest. -/
theorem takeWhile_dOD_decomp :
    ∀ s : List Char, s.takeWhile isDigitOrDash =
      s.takeWhile Char.isDigit ++
        (s.dropWhile Char.isDigit).takeWhile isDigitOrDash := by
  intro s
  induction s with
  | nil => rfl
  | cons c cs ih =>
    rcases hc : c.isDigit with _ | _
    · simp [List.takeWhile_cons, List.dropWhile_cons, hc]
    · have hdod : isDigitOrDash c = true := by simp [isDigitOrDash, hc]
      simp [List.takeWhile_cons, List.dropWhile_cons, hc, hdod, ih]

/-- Splitting a dash-free piece followed by a dash peels off the piece. -/
theorem splitDash_cons_of_nodash :
    ∀ (a l : List Char), (∀ c ∈ a, (c == '-') = false) →
      splitDash (a ++ '-' :: l) = a :: splitDash l := by
  intro a
  induction a with
  | nil => intro l _; simp [splitDash]
  | cons c a' ih =>
    intro l h
    have hc : (c == '-') = false := h c (by simp)
    rw [List.cons_append, splitDash, if_neg (by simp_all), ih l
      (fun c' hc' => h c' (by simp [hc']))]

/-- Splitting a dash-free string yields a single piece. -/
theorem splitDash_single :
    ∀ a : List Char, (∀ c ∈ a, (c == '-') = false) → splitDash a = [a] := by
  intro a
  induction a with
  | nil => intro _; rfl
  | cons c a' ih =>
    intro h
    have hc : (c == '-') = false := h c (by simp)
    rw [splitDash, if_neg (by simp_all), ih (fun c' hc' => h c' (by simp [hc']))]

/-- Digit characters are not dashes. -/
theorem takeWhile_digit_nodash (s : List Char) :
    ∀ c ∈ s.takeWhile Char.isDigit, (c == '-') = false := by
  induction s with
  | nil => intro c hc; exact absurd hc (by simp)
  | cons x xs ih =>
    intro c hc
    rcases hx : x.isDigit with _ | _
    · simp only [List.takeWhile_cons, hx] at hc
      exact absurd hc (by simp)
    · simp only [List.takeWhile_cons, hx, if_true, List.mem_cons] at hc
      rcases hc with hc | hc
      · subst hc
        rcases hd : c == '-' with _ | _
        · rfl
        · rw [beq_iff_eq] at hd
          rw [hd] at hx
          exact absurd hx (by decide)
      · exact ih c hc

/-- Every character of a `takeWhile` result satisfies the predicate. -/
theorem mem_takeWhile_pred (p : Char → Bool) :
    ∀ s : List Char, ∀ c ∈ s.takeWhile p, p c = true := by
  intro s
  induction s with
  | nil => intro c hc; exact absurd hc (by simp)
  | cons x xs ih =>
    intro c hc
    rcases hx : p x with _ | _
    · simp only [List.takeWhile_cons, hx] at hc
      exact absurd hc (by simp)
    · simp only [List.takeWhile_cons, hx, if_true, List.mem_cons] at hc
      rcases hc with hc | hc
      · subst hc; exact hx
      · exact ih c hc

/-- Inversion for `parseU64` on all-digit strings. -/
theorem parseU64_some_iff (a : List Char)
    (hall : ∀ c ∈ a, Char.isDigit c = true) (v : Nat) :
    parseU64 a = some v ↔ a ≠ [] ∧ v = strVal a ∧ v ≤ U64MAX := by
  unfold parseU64
  have h2 : a.all Char.isDigit = true := by
    rw [List.all_eq_true]
    exact hall
  rw [h2]
  rcases he : a.isEmpty with _ | _
  · rw [if_neg (by simp [he]), if_pos rfl]
    have hne : a ≠ [] := by simpa using he
    by_cases hv : strVal a ≤ U64MAX
    · rw [if_pos hv]
      constructor
      · intro h
        injection h with h
        exact ⟨hne, h.symm, h ▸ hv⟩
      · rintro ⟨-, rfl, -⟩
        rfl
    · rw [if_neg hv]
      constructor
      · intro h
        exact absurd h (by simp)
      · rintro ⟨-, rfl, hvb⟩
        exact absurd hvb hv
  · rw [if_pos (by simp [he])]
    constructor
    · intro h
      exact absurd h (by simp)
    · rintro ⟨hne, -⟩
      exact absurd (by simpa using he) hne

/-- The parse of the text following `"range "` succeeds with `(f, t)` exactly
when the amended number pattern holds there. -/
theorem parseTail_iff (s : List Char) (f t : Nat) :
    (match splitDash (s.takeWhile isDigitOrDash) with
     | p1 :: p2 :: _ =>
       match parseU64 p1, parseU64 p2 with
       | some a, some b => some (a, b)
       | _, _ => none
     | _ => none) = some (f, t) ↔ amendedNumAt s f t := by
  have hsplit := takeWhile_dOD_decomp s
  have hdrop1 : s.drop (s.takeWhile Char.isDigit).length = s.dropWhile Char.isDigit :=
    drop_length_takeWhile Char.isDigit s
  rcases hu : s.dropWhile Char.isDigit with _ | ⟨d, u'⟩
  · rw [hu] at hsplit hdrop1
    rw [List.takeWhile_nil, List.append_nil] at hsplit
    rw [hsplit, splitDash_single _ (takeWhile_digit_nodash s)]
    unfold amendedNumAt
    rw [hdrop1]
    simp
  · rw [hu] at hsplit hdrop1
    rcases hd : d == '-' with _ | _
    · have hdod : isDigitOrDash d = false := by
        have hdig : d.isDigit = false := by
          have := List.head?_dropWhile_not Char.isDigit s
          rw [hu] at this
          simpa using this
        simp [isDigitOrDash, hdig, hd]
      simp only [List.takeWhile_cons, hdod, Bool.false_eq_true, if_false,
        List.append_nil] at hsplit
      rw [hsplit, splitDash_single _ (takeWhile_digit_nodash s)]
      unfold amendedNumAt
      rw [hdrop1]
      constructor
      · intro h; exact absurd h (by simp)
      · rintro ⟨-, h2, -⟩
        injection h2 with h2
        exact absurd h2 (by simpa using hd)
    · rw [beq_iff_eq] at hd
      subst hd
      rw [List.takeWhile_cons] at hsplit
      rw [show isDigitOrDash '-' = true from rfl] at hsplit
      simp only [if_true] at hsplit
      rw [hsplit, splitDash_cons_of_nodash _ _ (takeWhile_digit_nodash s)]
      have hdrop2 : s.drop ((s.takeWhile Char.isDigit).length + 1) = u' := by
        rw [← List.drop_drop, hdrop1, List.drop_one]
        rfl
      obtain ⟨rest2, hrest2⟩ :
          ∃ rest2, splitDash (u'.takeWhile isDigitOrDash) =
            u'.takeWhile Char.isDigit :: rest2 := by
        have hsplit2 := takeWhile_dOD_decomp u'
        rcases hu2 : u'.dropWhile Char.isDigit with _ | ⟨d2, u2'⟩
        · rw [hu2] at hsplit2
          rw [List.takeWhile_nil, List.append_nil] at hsplit2
          rw [hsplit2, splitDash_single _ (takeWhile_digit_nodash u')]
          exact ⟨[], rfl⟩
        · rw [hu2] at hsplit2
          rcases hd2 : d2 == '-' with _ | _
          · have hdod2 : isDigitOrDash d2 = false := by
              have hdig2 : d2.isDigit = false := by
                have := List.head?_dropWhile_not Char.isDigit u'
                rw [hu2] at this
                simpa using this
              simp [isDigitOrDash, hdig2, hd2]
            simp only [List.takeWhile_cons, hdod2, Bool.false_eq_true, if_false,
              List.append_nil] at hsplit2
            rw [hsplit2, splitDash_single _ (takeWhile_digit_nodash u')]
            exact ⟨[], rfl⟩
          · rw [beq_iff_eq] at hd2
            subst hd2
            rw [List.takeWhile_cons] at hsplit2
            rw [show isDigitOrDash '-' = true from rfl] at hsplit2
            simp only [if_true] at hsplit2
            rw [hsplit2, splitDash_cons_of_nodash _ _ (takeWhile_digit_nodash u')]
            exact ⟨_, rfl⟩
      rw [hrest2]
      have hmatch :
          (match (s.takeWhile Char.isDigit) :: (u'.takeWhile Char.isDigit) :: rest2 with
           | p1 :: p2 :: _ =>
             match parseU64 p1, parseU64 p2 with
             | some a, some b => some (a, b)
             | _, _ => none
           | _ => none) =
          (match parseU64 (s.takeWhile Char.isDigit),
              parseU64 (u'.takeWhile Char.isDigit) with
           | some a, some b => some (a, b)
           | _, _ => none) := rfl
      rw [hmatch]
      unfold amendedNumAt
      rw [hdrop1, hdrop2]
      constructor
      · intro h
        rcases hp1 : parseU64 (s.takeWhile Char.isDigit) with _ | v1
        · rw [hp1] at h
          exact absurd h (by simp)
        · rcases hp2 : parseU64 (u'.takeWhile Char.isDigit) with _ | v2
          · rw [hp1, hp2] at h
            exact absurd h (by simp)
          · rw [hp1, hp2] at h
            obtain ⟨hne1, hv1, hb1⟩ :=
              (parseU64_some_iff _ (mem_takeWhile_pred Char.isDigit s) v1).mp hp1
            obtain ⟨hne2, hv2, hb2⟩ :=
              (parseU64_some_iff _ (mem_takeWhile_pred Char.isDigit u') v2).mp hp2
            injection h with h
            injection h with h1 h2
            refine ⟨hne1, rfl, hne2, by rw [← h1, hv1], by rw [← h2, hv2], ?_, ?_⟩
            · rw [← h1]
              exact hb1
            · rw [← h2]
              exact hb2
      · rintro ⟨hne1, -, hne2, hf, ht, hfb, htb⟩
        have hp1 : parseU64 (s.takeWhile Char.isDigit) = some f :=
          (parseU64_some_iff _ (mem_takeWhile_pred Char.isDigit s) f).mpr
            ⟨hne1, hf, hfb⟩
        have hp2 : parseU64 (u'.takeWhile Char.isDigit) = some t :=
          (parseU64_some_iff _ (mem_takeWhile_pred Char.isDigit u') t).mpr
            ⟨hne2, ht, htb⟩
        rw [hp1, hp2]

/-- The parser accepts exactly the amended shape: `"max results"` anywhere,
the *first* `"range "` occurrence anywhere, and the amended number pattern
after it. -/
theorem parse_max_results_error_iff (e : String) (f t : Nat) :
    parse_max_results_error e = some (f, t) ↔ AmendedShape e.data f t := by
  unfold parse_max_results_error
  simp only
  generalize e.data = msg
  rcases hcontains : (afterFirst maxResultsPat msg).isSome with _ | _
  · rw [if_neg (by simp)]
    constructor
    · intro h
      exact absurd h (by simp)
    · rintro ⟨⟨i, hi, hocc⟩, -⟩
      have hnone : afterFirst maxResultsPat msg = none := by
        rcases hx : afterFirst maxResultsPat msg with _ | r
        · rfl
        · rw [hx] at hcontains
          exact absurd hcontains (by simp)
      rw [afterFirst_none _ _ hnone i] at hocc
      exact absurd hocc (by simp)
  · rw [if_pos rfl]
    rcases hrange : afterFirst rangePat msg with _ | range_part
    · constructor
      · intro h
        exact absurd h (by simp)
      · rintro ⟨-, j, hjmem, hjocc, -⟩
        rw [afterFirst_none _ _ hrange j] at hjocc
        exact absurd hjocc (by simp)
    · obtain ⟨j₀, hj₀le, hj₀occ, hj₀first, hr⟩ := afterFirst_some _ _ _ hrange
      simp only
      rw [parseTail_iff range_part f t]
      constructor
      · intro hnum
        refine ⟨?_, j₀, by rw [List.mem_range]; omega, hj₀occ, hj₀first, ?_⟩
        · rcases hx : afterFirst maxResultsPat msg with _ | r0
          · rw [hx] at hcontains
            exact absurd hcontains (by simp)
          · obtain ⟨i, hile, hiocc, -, -⟩ := afterFirst_some _ _ _ hx
            exact ⟨i, by rw [List.mem_range]; omega, hiocc⟩
        · rw [← hr]
          exact hnum
      · rintro ⟨-, j, hjmem, hjocc, hjfirst, hnum⟩
        have hjj : j = j₀ := by
          by_contra hne
          rcases Nat.lt_or_ge j j₀ with hlt | hge
          · rw [hj₀first j hlt] at hjocc
            exact absurd hjocc (by simp)
          · have hlt : j₀ < j := by omega
            rw [hjfirst j₀ hlt] at hj₀occ
            exact absurd hj₀occ (by simp)
        rw [hjj, ← hr] at hnum
        exact hnum

/-- C2 counterexample: the code accepts a `"range "` occurrence that comes
*before* `"max results"` (the claim's shape requires it after) and accepts
extra dash-separated pieces after the two integers (the claim's terminator
forbids a dash there), while it rejects a message whose only well-formed
`"range <digits>-<digits>"` occurrence is not the first `"range "` (the
claim's existential shape accepts it). -/
theorem parse_shape_counterexample :
    parse_max_results_error "range 5-7 max results" = some (5, 7) ∧
    ¬ SpecShape "range 5-7 max results".data 5 7 ∧
    parse_max_results_error "max results range 100-200-300" = some (100, 200) ∧
    ¬ SpecShape "max results range 100-200-300".data 100 200 ∧
    parse_max_results_error "max results range x range 5-7" = none ∧
    SpecShape "max results range x range 5-7".data 5 7 :=
  ⟨rfl, by decide, rfl, by decide, rfl, by decide⟩

/-- C2 (amended): `parse_max_results_error` returns `some (from, to)` exactly
when the message contains `"max results"` anywhere and the *first* occurrence
of `"range "` anywhere in the message (not necessarily after `"max results"`)
is followed by two nonempty maximal digit runs separated by a single dash,
both parsing as `u64`; whatever follows the second run — including further
dashes and digit pieces — is ignored.  For any message not of this shape the
parser returns `none`, and the Fetcher propagates the original provider
error unchanged. -/
theorem parse_grammar_characterization :
    (∀ (e : String) (f t : Nat),
      parse_max_results_error e = some (f, t) ↔ AmendedShape e.data f t) ∧
    (∀ (L : Type) (p : Filter → Except ProviderError (List L)) (f : Filter)
      (e : ProviderError) (depth : Nat), depth ≤ MAX_RECURSION_DEPTH →
      p f = Except.error e → parse_max_results_error e = none →
      get_logs_paginated p f depth = Except.error e) := by
  constructor
  · exact parse_max_results_error_iff
  · intro L p f e depth hdep hp hparse
    have hM : MAX_RECURSION_DEPTH = 10 := rfl
    rw [get_logs_paginated_eq]
    rw [if_neg (show ¬ MAX_RECURSION_DEPTH < depth by omega)]
    simp only [hp, hparse]

/-- Witness for the amended C2: a provider error that fails the grammar is
propagated unchanged by the Fetcher. -/
theorem parse_grammar_characterization_witness :
    get_logs_paginated
      (fun _ => Except.error "some other error" :
        Filter → Except ProviderError (List Nat))
      ⟨FilterBlockOption.range none none, ""⟩ 0 =
      Except.error "some other error" :=
  parse_grammar_characterization.2 Nat _ _ "some other error" 0 (by decide) rfl rfl

end RpcTester
